import Mathlib

/-!
Verification of the CodeChain consensus/state core against its
natural-language specification.

The Rust sources are shallowly embedded: HashMap/BTreeMap values become
association lists, HashSet values become lists with membership checks,
VecDeque values become lists whose head is the front, and machine hashes,
addresses and signatures become natural numbers (equality is all the code
under study ever uses of them).  Fallible operations return Option/Except.
-/

/-! ## Association-list helpers (HashMap / BTreeMap embedding) -/

/-- Lookup in an association list; embeds `HashMap::get` / `BTreeMap::get`. -/
def alookup {α β : Type} [DecidableEq α] : List (α × β) → α → Option β
  | [], _ => none
  | (k', v) :: rest, k => if k' = k then some v else alookup rest k

/-- Insert-or-replace in an association list; embeds `HashMap::insert` /
`BTreeMap::insert` (the previous value, if any, is replaced). -/
def aset {α β : Type} [DecidableEq α] : List (α × β) → α → β → List (α × β)
  | [], k, v => [(k, v)]
  | (k', v') :: rest, k, v =>
    if k' = k then (k, v) :: rest else (k', v') :: aset rest k v

/-! ## Tendermint vote collector
(`src/core/src/consensus/tendermint/vote_collector.rs`) -/

/-- Modelled from the spec: the voting step of the Tendermint rounds.
The concrete `Step` enum lives in the (absent) `tendermint/mod.rs`;
the spec fixes the three in-round phases and their order. -/
inductive Step where
  | Propose : Step
  | Prevote : Step
  | Precommit : Step
deriving DecidableEq

def Step.toNat : Step → Nat
  | .Propose => 0
  | .Prevote => 1
  | .Precommit => 2

/-- Modelled from the spec: `VoteStep = (height, view, step)` with the
natural (lexicographic) order; the concrete type is in the absent
`tendermint/mod.rs`. -/
structure VoteStep where
  height : Nat
  view : Nat
  step : Step
deriving DecidableEq

/-- Strict order on rounds, lexicographic on `(height, view, step)`;
embeds the derived `Ord` used by the `BTreeMap` of the collector. -/
def VoteStep.lt (a b : VoteStep) : Bool :=
  decide (a.height < b.height) ||
    (decide (a.height = b.height) &&
      (decide (a.view < b.view) ||
        (decide (a.view = b.view) && decide (a.step.toNat < b.step.toNat))))

/-- Modelled from the spec: a consensus message carries its round, an
optional block hash (`None` is a nil-vote), a dense signer index and a
signature; equality is by full content.  The concrete type is in the
absent `tendermint/message.rs`. -/
structure ConsensusMessage where
  round : VoteStep
  blockHash : Option Nat
  signerIndex : Nat
  signature : Nat
deriving DecidableEq

/-- Per-round collector: the three projections of the same message set,
embedding the `StepCollector` struct (`vote_collector.rs:34`). -/
structure StepCollector where
  voted : List (Nat × ConsensusMessage)
  block_votes : List (Option Nat × List (Nat × Nat))
  messages : List ConsensusMessage
deriving DecidableEq

def emptyStep : StepCollector := ⟨[], [], []⟩

/-- Double-vote witness, embedding the `DoubleVote` struct
(`vote_collector.rs:41`). -/
structure DoubleVote where
  author_index : Nat
  vote_one : ConsensusMessage
  vote_two : ConsensusMessage
deriving DecidableEq

/-- Record a signature under `block_votes[block_hash][signer_index]`,
embedding `self.block_votes.entry(..).or_default().insert(..)`
(`vote_collector.rs:76`). -/
def bvInsert : List (Option Nat × List (Nat × Nat)) → Option Nat → Nat → Nat →
    List (Option Nat × List (Nat × Nat))
  | [], h, s, sig => [(h, [(s, sig)])]
  | (h', inner) :: rest, h, s, sig =>
    if h' = h then (h', aset inner s sig) :: rest
    else (h', inner) :: bvInsert rest h s sig

/-- Embeds `StepCollector::insert` (`vote_collector.rs:65`): dedup on the
message set, then detect a second distinct message from the same signer;
only on a first message from a signer is `block_votes` updated.  Note the
source's `self.voted.insert` replaces the previous entry in both branches. -/
def StepCollector.insert (c : StepCollector) (m : ConsensusMessage) :
    StepCollector × Option DoubleVote :=
  if m ∈ c.messages then (c, none)
  else
    match alookup c.voted m.signerIndex with
    | some previous =>
      ({ c with
          messages := m :: c.messages,
          voted := aset c.voted m.signerIndex m },
        some ⟨m.signerIndex, previous, m⟩)
    | none =>
      ({ c with
          messages := m :: c.messages,
          voted := aset c.voted m.signerIndex m,
          block_votes := bvInsert c.block_votes m.blockHash m.signerIndex m.signature },
        none)

/-- All signer indices listed in `block_votes`, in iteration order; this is
exactly the sequence of indices visited by `StepCollector::count`
(`vote_collector.rs:97`). -/
def bvJoin (c : StepCollector) : List Nat :=
  (c.block_votes.map (fun p => p.2.map Prod.fst)).flatten

/-- The bitset returned by `StepCollector::count`, as the set of indices. -/
def StepCollector.count (c : StepCollector) : Finset Nat :=
  (bvJoin c).toFinset

/-- Signer indices that currently have an entry in `voted`. -/
def votedKeys (c : StepCollector) : List Nat :=
  c.voted.map Prod.fst

/-- Fold a list of messages through `StepCollector.insert`, starting from
the empty collector. -/
def runInserts (ms : List ConsensusMessage) : StepCollector :=
  ms.foldl (fun c m => (c.insert m).1) emptyStep

/-! ### VoteCollector (`vote_collector.rs:109`) -/

/-- Ordered map from rounds to per-round collectors, embedding the
`BTreeMap<VoteStep, StepCollector>` field; keys are unique, order is
irrelevant to the embedded operations (the minimum is computed
explicitly). -/
structure VoteCollector where
  votes : List (VoteStep × StepCollector)
deriving DecidableEq

/-- Embeds `VoteCollector::default` (`vote_collector.rs:109`): a sentinel
entry at the default (smallest) round. -/
def initVote : VoteCollector :=
  ⟨[(⟨0, 0, Step.Propose⟩, emptyStep)]⟩

/-- Embeds `VoteCollector::vote` (`vote_collector.rs:122`):
`entry(round).or_insert_with(Default).insert(message)` — note that no
round-age check happens here. -/
def VoteCollector.vote (c : VoteCollector) (m : ConsensusMessage) :
    VoteCollector × Option DoubleVote :=
  let sc := (alookup c.votes m.round).getD emptyStep
  let r := sc.insert m
  (⟨aset c.votes m.round r.1⟩, r.2)

def keysVC (c : VoteCollector) : List VoteStep :=
  c.votes.map Prod.fst

/-- One step of the running-minimum fold over the keys. -/
def minStep (acc : Option VoteStep) (p : VoteStep × StepCollector) : Option VoteStep :=
  match acc with
  | none => some p.1
  | some k => if p.1.lt k then some p.1 else some k

/-- The smallest key of the map, i.e. `self.votes.keys().next()` of the
`BTreeMap` (`vote_collector.rs:135`). -/
def smallestKey (c : VoteCollector) : Option VoteStep :=
  c.votes.foldl minStep none

/-- Message set stored for a round (empty if the round has no entry). -/
def messagesAt (c : VoteCollector) (r : VoteStep) : List ConsensusMessage :=
  ((alookup c.votes r).getD emptyStep).messages

/-- Embeds `VoteCollector::is_old_or_known` (`vote_collector.rs:127`). -/
def VoteCollector.is_old_or_known (c : VoteCollector) (m : ConsensusMessage) : Bool :=
  let known := match alookup c.votes m.round with
    | some sc => decide (m ∈ sc.messages)
    | none => false
  if known then true
  else
    match smallestKey c with
    | none => true
    | some oldest => m.round.lt oldest

/-- Embeds `VoteCollector::throw_out_old` (`vote_collector.rs:145`):
`split_off` keeps the entries with key ≥ the given round; the second
component is the value of the non-emptiness assertion. -/
def VoteCollector.throw_out_old (c : VoteCollector) (r : VoteStep) :
    VoteCollector × Bool :=
  let newVotes := c.votes.filter (fun p => !(p.1.lt r))
  (⟨newVotes⟩, !newVotes.isEmpty)

/-- Signer indices of a raw `block_votes` table, in iteration order. -/
def bvKeys (bv : List (Option Nat × List (Nat × Nat))) : List Nat :=
  (bv.map (fun p => p.2.map Prod.fst)).flatten

/-- Coherence invariant of a `StepCollector`: the signer indices listed in
`block_votes` are pairwise distinct and are exactly the signers recorded
in `voted`. -/
def InvC (c : StepCollector) : Prop :=
  (bvJoin c).Nodup ∧ (votedKeys c).Nodup ∧ ∀ s, s ∈ bvJoin c ↔ s ∈ votedKeys c

/-! ## Versioned state database (`src/core/src/state_db.rs`) -/

/-- Modelled from the spec: `Account` is an opaque per-address snapshot
supporting `overwrite_with(other)`; the concrete type lives in the absent
`state/account.rs`, so it is represented by an opaque numeric payload. -/
abbrev Account : Type := Nat

/-- Modelled from the spec: `overwrite_with(other)` replaces this
snapshot's contents with `other`'s. -/
def Account.overwrite_with (_self other : Account) : Account := other

/-- Embeds `BlockChanges` (`state_db.rs:63`).  The `accounts` HashSet is a
list used only through membership. -/
structure BlockChanges where
  number : Nat
  hash : Nat
  parent : Nat
  accounts : List Nat
  is_canon : Bool
deriving DecidableEq

/-- Embeds `CacheQueueItem` (`state_db.rs:51`). -/
structure CacheQueueItem where
  address : Nat
  account : Option Account
  modified : Bool
deriving DecidableEq

/-- Embeds `AccountCache` (`state_db.rs:39`): the LRU is an association
list (capacity-driven eviction is outside the embedded claims), the
`VecDeque` a list whose head is the front. -/
structure AccountCache where
  accounts : List (Nat × Option Account)
  modifications : List BlockChanges
deriving DecidableEq

def emptyCache : AccountCache := ⟨[], []⟩

/-- Embeds the per-handle fields of `StateDB` (`state_db.rs:90`); the
backing journal database is external and is threaded explicitly where
needed. -/
structure StateDB where
  local_cache : List CacheQueueItem
  parent_hash : Option Nat
  commit_hash : Option Nat
  commit_number : Option Nat
deriving DecidableEq

def STATE_CACHE_BLOCKS : Nat := 12

/-- Flip `is_canon` on the first modification entry with the given hash,
embedding `cache.modifications.iter_mut().find(|m| &m.hash == block)`
followed by the flag write (`state_db.rs:159`). -/
def setCanonFirst : List BlockChanges → Nat → Bool → List BlockChanges
  | [], _, _ => []
  | m :: rest, h, canon =>
    if m.hash = h then { m with is_canon := canon } :: rest
    else m :: setCanonFirst rest h canon

/-- Process one enacted/retracted hash (`state_db.rs:157`): if a
modification entry is found, mark it and purge its addresses from the
LRU, returning the updated cache; otherwise `none` (a wipe is
requested). -/
def markAndPurge (cache : AccountCache) (h : Nat) (canon : Bool) :
    Option AccountCache :=
  match cache.modifications.find? (fun m => m.hash == h) with
  | none => none
  | some m =>
    some { accounts := cache.accounts.filter (fun p => decide (p.1 ∉ m.accounts)),
           modifications := setCanonFirst cache.modifications h canon }

/-- Fold `markAndPurge` over a hash list with the short-circuiting
`clear = clear || { .. }` accumulator of the source loops
(`state_db.rs:156`): once `clear` is true the per-hash block is skipped. -/
def purgeList : AccountCache → Bool → List Nat → Bool → AccountCache × Bool
  | cache, clear, [], _ => (cache, clear)
  | cache, clear, h :: rest, canon =>
    if clear then purgeList cache true rest canon
    else
      match markAndPurge cache h canon with
      | some c' => purgeList c' false rest canon
      | none => purgeList cache true rest canon

/-- Insert a `BlockChanges` before the first entry with strictly smaller
number, else at the back (`state_db.rs:230`). -/
def insertByNumber : List BlockChanges → BlockChanges → List BlockChanges
  | [], bc => [bc]
  | m :: rest, bc =>
    if m.number < bc.number then bc :: m :: rest
    else m :: insertByNumber rest bc

/-- Drain one `local_cache` item into the LRU (`state_db.rs:208`): if an
existing cached account collides with a new one it is merged via
`overwrite_with` when modified (and kept as is otherwise); in every other
case the item's account is inserted. -/
def drainItem (accs : List (Nat × Option Account)) (item : CacheQueueItem) :
    List (Nat × Option Account) :=
  match alookup accs item.address with
  | some (some existing) =>
    match item.account with
    | some newAcc =>
      if item.modified then
        aset accs item.address (some (existing.overwrite_with newAcc))
      else accs
    | none => aset accs item.address none
  | _ => aset accs item.address item.account

/-- The cache-propagation step of `sync_cache` (`state_db.rs:198`): runs
only when the handle is canonical and committed; evicts the oldest
modification entry when the deque is full, drains `local_cache` into the
LRU when `is_best`, and records the new `BlockChanges`. -/
def propagate (st : StateDB) (cache : AccountCache) (is_best : Bool) :
    StateDB × AccountCache :=
  match st.commit_number, st.commit_hash, st.parent_hash with
  | some number, some hash, some parent =>
    let mods0 :=
      if cache.modifications.length = STATE_CACHE_BLOCKS then
        cache.modifications.dropLast
      else cache.modifications
    let modAddrs := (st.local_cache.filter (fun i => i.modified)).map
      (fun i => i.address)
    let accounts' :=
      if is_best then st.local_cache.foldl drainItem cache.accounts
      else cache.accounts
    let bc : BlockChanges := ⟨number, hash, parent, modAddrs, is_best⟩
    ({ st with local_cache := [] },
      { accounts := accounts', modifications := insertByNumber mods0 bc })
  | _, _, _ => (st, cache)

/-- Drop the committing block from the enacted list, embedding
`enacted.iter().filter(|h| self.commit_hash.as_ref().map_or(true, |p| *h != p))`
(`state_db.rs:157`). -/
def filterCommitting (commit : Option Nat) (hs : List Nat) : List Nat :=
  hs.filter (fun h =>
    match commit with
    | none => true
    | some p => decide (h ≠ p))

/-- Embeds `StateDB::sync_cache` (`state_db.rs:149`): purge enacted
(filtering out the committing block) and retracted hashes, wipe everything
if any hash was unknown, then propagate. -/
def syncCache (st : StateDB) (cache : AccountCache)
    (enacted retracted : List Nat) (is_best : Bool) : StateDB × AccountCache :=
  let r1 := purgeList cache false (filterCommitting st.commit_hash enacted) true
  let r2 := purgeList r1.1 r1.2 retracted false
  let cache3 := if r2.2 then emptyCache else r2.1
  propagate st cache3 is_best

/-- Embeds `StateDB::journal_under` (`state_db.rs:130`): the backing
`JournalDB` write is external, so its outcome is passed in; on success the
commit stamp is written, on failure the error is returned with the handle
untouched. -/
def journalUnder (st : StateDB) (dbRes : Except Nat Nat) (now : Nat)
    (id : Nat) : Except Nat Nat × StateDB :=
  match dbRes with
  | .error e => (.error e, st)
  | .ok records =>
    (.ok records, { st with commit_hash := some id, commit_number := some now })

/-- The chain walk of `StateDB::is_allowed` (`state_db.rs:311`): scan the
deque in order; an entry matching the current parent either certifies the
cache (canonical) or redirects the walk to its parent; any scanned entry
that modified the address vetoes the cache. -/
def goAllowed (addr : Nat) : Nat → List BlockChanges → Bool
  | _, [] => false
  | parent, m :: rest =>
    if m.hash = parent then
      if m.is_canon then true
      else if addr ∈ m.accounts then false
      else goAllowed addr m.parent rest
    else if addr ∈ m.accounts then false
    else goAllowed addr parent rest

/-- Embeds `StateDB::is_allowed` (`state_db.rs:295`). -/
def isAllowed (addr : Nat) (parentHash : Option Nat)
    (mods : List BlockChanges) : Bool :=
  match parentHash with
  | none => false
  | some parent => if mods.isEmpty then true else goAllowed addr parent mods

/-- Embeds `StateDB::get_cached_account` (`state_db.rs:345`). -/
def getCachedAccount (st : StateDB) (cache : AccountCache) (addr : Nat) :
    Option (Option Account) :=
  if isAllowed addr st.parent_hash cache.modifications then
    alookup cache.accounts addr
  else none

/-- The wipe condition of the claim: some enacted hash (other than the
committing block) or some retracted hash has no entry in the
modifications deque. -/
def wipeRequested (st : StateDB) (cache : AccountCache)
    (enacted retracted : List Nat) : Bool :=
  (filterCommitting st.commit_hash enacted ++ retracted).any (fun h =>
    !(cache.modifications.any (fun m => m.hash == h)))

/-- Modelled from the spec: the walk "from the handle's `parent_hash` up
through the modification chain via `parent` pointers", looking each hop up
by hash, succeeding when it reaches a canonical block and failing when a
pre-canonical hop modified the address or the chain cannot be resolved;
the fuel bounds the hop count by the deque length. -/
def specWalk (addr : Nat) (mods : List BlockChanges) : Nat → Nat → Bool
  | _, 0 => false
  | parent, fuel + 1 =>
    match mods.find? (fun m => m.hash == parent) with
    | none => false
    | some m =>
      if m.is_canon then true
      else if addr ∈ m.accounts then false
      else specWalk addr mods m.parent fuel

/-- The spec walk at full fuel: `true` means the chain resolves to a
canonical block with no pre-canonical hop touching the address. -/
def walkOk (addr parent : Nat) (mods : List BlockChanges) : Bool :=
  specWalk addr mods parent (mods.length + 1)

/-- Modelled from the claim: some block on the ancestor chain of `parent`
within the deque (canonical or not) modified the address. -/
def chainTouches (addr : Nat) (mods : List BlockChanges) : Nat → Nat → Bool
  | _, 0 => false
  | parent, fuel + 1 =>
    match mods.find? (fun m => m.hash == parent) with
    | none => false
    | some m =>
      decide (addr ∈ m.accounts) || chainTouches addr mods m.parent fuel

/-- The claim-side ancestor predicate at full fuel. -/
def ancestorTouches (addr parent : Nat) (mods : List BlockChanges) : Bool :=
  chainTouches addr mods parent (mods.length + 1)

/-! ## Handshake engine (`src/network/src/handshake/handshake.rs`) -/

/-- Modelled from the spec: a session pairs a shared secret with an
optional expected-reply nonce; the concrete type is in the absent
`network/session.rs`. -/
structure Session where
  secret : Nat
  nonce : Option Nat
deriving DecidableEq

/-- Modelled from the spec: a session is ready once it carries an expected
nonce. -/
def Session.is_ready (s : Session) : Bool :=
  s.nonce.isSome

/-- Modelled from the spec: the received nonce must equal the stored
expected nonce. -/
def Session.is_expected_nonce (s : Session) (n : Nat) : Bool :=
  decide (s.nonce = some n)

/-- Modelled from the spec: session encryption is an AEAD over the RLP
bytes of the nonce; it is embedded as an invertible coding tagged by the
session secret, which is all the handshake logic observes of it. -/
def encryptNonce (s : Session) (n : Nat) : List Nat :=
  [s.secret, n]

/-- Modelled from the spec: decryption inverts `encryptNonce` under the
same secret and fails otherwise (embedding
`decrypt_and_decode_nonce`, `handshake.rs:232`). -/
def decryptNonce (s : Session) (bytes : List Nat) : Option Nat :=
  match bytes with
  | [k, n] => if k = s.secret then some n else none
  | _ => none

/-- Errors of the handshake engine (`handshake.rs:44`), restricted to the
variants reachable from the embedded packet handler. -/
inductive HandshakeError where
  | NoSession : HandshakeError
  | NotReady : HandshakeError
  | RlpError : HandshakeError
  | UnexpectedNonce : Nat → HandshakeError
deriving DecidableEq

/-- Messages forwarded to the connection layer
(`connection::HandlerMessage`, absent from src/; modelled from the spec's
`RegisterSession` / `RequestConnection` descriptions). -/
inductive ConnMessage where
  | RegisterSession : Nat → Session → ConnMessage
  | RequestConnection : Nat → Session → ConnMessage
deriving DecidableEq

/-- Handshake message bodies (`HandshakeMessageBody`, absent from src/;
modelled from the spec's protocol description, restricted to the three
implemented variants). -/
inductive HandshakeBody where
  | ConnectionRequest : List Nat → HandshakeBody
  | ConnectionAllowed : List Nat → HandshakeBody
  | ConnectionDenied : Nat → HandshakeBody
deriving DecidableEq

/-- Embeds `Handshake::on_packet` (`handshake.rs:169`): the result carries
the messages sent to the connection layer and the handshake replies sent
back over UDP. -/
def onPacket (table : List (Nat × Session)) (body : HandshakeBody)
    (src : Nat) : Except HandshakeError (List ConnMessage × List HandshakeBody) :=
  match body with
  | .ConnectionRequest enc =>
    match alookup table src with
    | none => .error .NoSession
    | some session =>
      match decryptNonce session enc with
      | none => .error .RlpError
      | some nonce =>
        .ok ([.RegisterSession src session],
          [.ConnectionAllowed (encryptNonce session nonce)])
  | .ConnectionAllowed enc =>
    match alookup table src with
    | none => .error .NoSession
    | some session =>
      if ¬ session.is_ready then .error .NotReady
      else
        match decryptNonce session enc with
        | none => .error .RlpError
        | some nonce =>
          if ¬ session.is_expected_nonce nonce then
            .error (.UnexpectedNonce nonce)
          else .ok ([.RequestConnection src session], [])
  | .ConnectionDenied _ => .ok ([], [])

/-! ## Sync response codec (`src/sync/src/block/message/response.rs`) -/

/-- Modelled from the spec: an RLP value is either a byte string or a list
of values; the byte-level RLP format is an out-of-scope collaborator, so
items are kept structured. -/
inductive Rlp where
  | str : List Nat → Rlp
  | items : List Rlp → Rlp

/-- Modelled from the spec: `Header` RLP is opaque to the codec; it is
embedded as an injective coding of an opaque numeric header. -/
def headerToRlp (h : Nat) : Rlp := .str [h]

def headerOfRlp : Rlp → Option Nat
  | .str [h] => some h
  | _ => none

/-- Length-prefixed serialization of one transaction list, standing for
the inner `append_list(body)` bytes. -/
def serL (xs : List Nat) : List Nat := xs.length :: xs

def parseL : List Nat → Option (List Nat × List Nat)
  | [] => none
  | n :: rest =>
    if n ≤ rest.length then some (rest.take n, rest.drop n) else none

def parseMany : Nat → List Nat → Option (List (List Nat) × List Nat)
  | 0, input => some ([], input)
  | k + 1, input =>
    match parseL input with
    | none => none
    | some (x, rest) =>
      match parseMany k rest with
      | none => none
      | some (xs, rest') => some (x :: xs, rest')

/-- Modelled from the spec: the uncompressed `Bodies` payload is the RLP
bytes of a list of lists of transactions (`response.rs:40`); it is
embedded as a length-prefixed serialization with an exact parser. -/
def serLL (xss : List (List Nat)) : List Nat :=
  xss.length :: (xss.map serL).flatten

def parseLL : List Nat → Option (List (List Nat) × List Nat)
  | [] => none
  | n :: rest => parseMany n rest

/-- Modelled from the spec: snappy compression is an out-of-scope
collaborator whose only property used by the codec is losslessness
(`decompress (compress x) = x`); it is embedded as the identity coding. -/
def snappyCompress (bytes : List Nat) : List Nat := bytes

/-- Modelled from the spec: snappy decompression; inverse of
`snappyCompress`. -/
def snappyDecompress (bytes : List Nat) : Option (List Nat) := some bytes

/-- Message identifiers of the sync protocol (`message/mod.rs` is absent
from src/; modelled from the spec, with `Other` standing for every
identifier the decoder rejects). -/
inductive MessageID where
  | Headers : MessageID
  | Bodies : MessageID
  | StateHead : MessageID
  | StateChunk : MessageID
  | Other : MessageID
deriving DecidableEq

/-- Decoder errors reachable from `ResponseMessage::decode`
(`rlp::DecoderError`, external crate; modelled from the spec). -/
inductive DecoderError where
  | RlpIncorrectListLen : Nat → Nat → DecoderError
  | RlpExpectedToBeList : DecoderError
  | RlpExpectedToBeData : DecoderError
  | Custom : String → DecoderError
deriving DecidableEq

/-- Embeds `ResponseMessage` (`response.rs:24`); headers and transactions
are opaque numeric payloads. -/
inductive ResponseMessage where
  | Headers : List Nat → ResponseMessage
  | Bodies : List (List Nat) → ResponseMessage
  | StateHead : List Nat → ResponseMessage
  | StateChunk : List Nat → ResponseMessage
deriving DecidableEq

/-- Embeds `impl Encodable for ResponseMessage` (`response.rs:31`):
headers as a plain list, bodies as a one-element list holding the
snappy-compressed inner list-of-lists, state head/chunk as one-element
lists of raw bytes. -/
def ResponseMessage.rlp_append : ResponseMessage → Rlp
  | .Headers hs => .items (hs.map headerToRlp)
  | .Bodies bodies => .items [.str (snappyCompress (serLL bodies))]
  | .StateHead bytes => .items [.str bytes]
  | .StateChunk bytes => .items [.str bytes]

/-- Embeds `ResponseMessage::message_id` (`response.rs:69`). -/
def ResponseMessage.message_id : ResponseMessage → MessageID
  | .Headers _ => .Headers
  | .Bodies _ => .Bodies
  | .StateHead _ => .StateHead
  | .StateChunk _ => .StateChunk

def decodeHeaders : List Rlp → Option (List Nat)
  | [] => some []
  | r :: rest =>
    match headerOfRlp r with
    | none => none
    | some h =>
      match decodeHeaders rest with
      | none => none
      | some hs => some (h :: hs)

/-- Embeds `ResponseMessage::decode` (`response.rs:82`): `Headers` reads
the outer list; the three one-element variants check `item_count == 1`
(else `RlpIncorrectListLen{got, expected: 1}`); `Bodies` decompresses and
parses the inner list of lists; unknown identifiers fail. -/
def ResponseMessage.decode (id : MessageID) (r : Rlp) :
    Except DecoderError ResponseMessage :=
  match id with
  | .Headers =>
    match r with
    | .str _ => .error .RlpExpectedToBeList
    | .items l =>
      match decodeHeaders l with
      | none => .error .RlpExpectedToBeData
      | some hs => .ok (.Headers hs)
  | .Bodies =>
    match r with
    | .str _ => .error .RlpExpectedToBeList
    | .items [Rlp.str compressed] =>
      match snappyDecompress compressed with
      | none => .error (.Custom "Invalid compression format")
      | some un =>
        match parseLL un with
        | some (bodies, []) => .ok (.Bodies bodies)
        | _ => .error .RlpExpectedToBeList
    | .items [Rlp.items _] => .error .RlpExpectedToBeData
    | .items other => .error (.RlpIncorrectListLen other.length 1)
  | .StateHead =>
    match r with
    | .str _ => .error .RlpExpectedToBeList
    | .items [Rlp.str bytes] => .ok (.StateHead bytes)
    | .items [Rlp.items _] => .error .RlpExpectedToBeData
    | .items other => .error (.RlpIncorrectListLen other.length 1)
  | .StateChunk =>
    match r with
    | .str _ => .error .RlpExpectedToBeList
    | .items [Rlp.str bytes] => .ok (.StateChunk bytes)
    | .items [Rlp.items _] => .error .RlpExpectedToBeData
    | .items other => .error (.RlpIncorrectListLen other.length 1)
  | .Other => .error (.Custom "Unknown message id detected")

/-! ## Theorems -/

theorem alookup_aset_self {α β : Type} [DecidableEq α]
    (l : List (α × β)) (k : α) (v : β) : alookup (aset l k v) k = some v := by
  induction l with
  | nil => simp [aset, alookup]
  | cons p rest ih =>
    by_cases h : p.1 = k
    · simp [aset, h, alookup]
    · simp [aset, h, alookup, ih]

theorem aset_keys_of_lookup_some {α β : Type} [DecidableEq α]
    (l : List (α × β)) (k : α) (v w : β) (h : alookup l k = some w) :
    (aset l k v).map Prod.fst = l.map Prod.fst := by
  induction l with
  | nil => simp [alookup] at h
  | cons p rest ih =>
    by_cases hk : p.1 = k
    · simp [aset, hk]
    · simp [alookup, hk] at h
      simp [aset, hk, ih h]

theorem aset_keys_of_lookup_none {α β : Type} [DecidableEq α]
    (l : List (α × β)) (k : α) (v : β) (h : alookup l k = none) :
    (aset l k v).map Prod.fst = l.map Prod.fst ++ [k] := by
  induction l with
  | nil => simp [aset]
  | cons p rest ih =>
    by_cases hk : p.1 = k
    · simp [alookup, hk] at h
    · simp [alookup, hk] at h
      simp [aset, hk, ih h]

theorem alookup_none_iff_not_mem_keys {α β : Type} [DecidableEq α]
    (l : List (α × β)) (k : α) :
    alookup l k = none ↔ k ∉ l.map Prod.fst := by
  induction l with
  | nil => simp [alookup]
  | cons p rest ih =>
    by_cases hk : p.1 = k
    · simp [alookup, hk]
    · simp [alookup, hk, ih]
      intro h
      exact fun he => hk he.symm

theorem Step.toNat_inj {a b : Step} (h : a.toNat = b.toNat) : a = b := by
  cases a <;> cases b <;> simp [Step.toNat] at h ⊢

theorem VoteStep.lt_irrefl (a : VoteStep) : a.lt a = false := by
  simp [VoteStep.lt]

theorem VoteStep.lt_trans {a b c : VoteStep}
    (h1 : a.lt b = true) (h2 : b.lt c = true) : a.lt c = true := by
  simp [VoteStep.lt] at h1 h2 ⊢
  omega

theorem VoteStep.lt_total {a b : VoteStep}
    (h : a.lt b = false) : b.lt a = true ∨ a = b := by
  simp [VoteStep.lt] at h ⊢
  rcases Nat.lt_trichotomy a.height b.height with hh | hh | hh
  · omega
  · rcases Nat.lt_trichotomy a.view b.view with hv | hv | hv
    · omega
    · rcases Nat.lt_trichotomy a.step.toNat b.step.toNat with hs | hs | hs
      · omega
      · right
        cases a; cases b
        simp_all
        exact Step.toNat_inj hs
      · omega
    · omega
  · omega

/-- Refutation of C1 as stated: the claim quantifies over every
`StepCollector`.  Take the collector that already contains both `m1` and
`m2` (same signer 3, same round, different block hashes).  Then
`insert(m1)` returns `None` (duplicate), but the subsequent `insert(m2)`
also returns `None` (duplicate) instead of the claimed `DoubleVote`. -/
theorem C1_counterexample :
    ((((runInserts [⟨⟨5, 0, Step.Prevote⟩, some 1, 3, 10⟩,
        ⟨⟨5, 0, Step.Prevote⟩, some 2, 3, 11⟩]).insert
          ⟨⟨5, 0, Step.Prevote⟩, some 1, 3, 10⟩).2 = none) ∧
      (((runInserts [⟨⟨5, 0, Step.Prevote⟩, some 1, 3, 10⟩,
        ⟨⟨5, 0, Step.Prevote⟩, some 2, 3, 11⟩]).insert
          ⟨⟨5, 0, Step.Prevote⟩, some 1, 3, 10⟩).1.insert
          ⟨⟨5, 0, Step.Prevote⟩, some 2, 3, 11⟩).2 = none) ∧
      (⟨⟨5, 0, Step.Prevote⟩, some 1, 3, 10⟩ : ConsensusMessage) ≠
        ⟨⟨5, 0, Step.Prevote⟩, some 2, 3, 11⟩ := by
  decide

/-- C1 (amended): for every `StepCollector` and messages `m1 ≠ m2` with the
same signer index, NEITHER OF WHICH IS ALREADY PRESENT in the collector's
message set, if `insert(m1)` returns `None` then `insert(m2)` returns a
`DoubleVote` whose author is that signer and whose members are exactly
`m1, m2` in that order, and `block_votes` is unchanged by the second
insert. -/
theorem C1_amended (S : StepCollector) (m1 m2 : ConsensusMessage)
    (hsig : m1.signerIndex = m2.signerIndex) (hne : m1 ≠ m2)
    (hm1 : m1 ∉ S.messages) (hm2 : m2 ∉ S.messages)
    (hfirst : (S.insert m1).2 = none) :
    ((S.insert m1).1.insert m2).2 = some ⟨m2.signerIndex, m1, m2⟩ ∧
      ((S.insert m1).1.insert m2).1.block_votes = (S.insert m1).1.block_votes := by
  unfold StepCollector.insert at hfirst
  rw [if_neg hm1] at hfirst
  cases halook : alookup S.voted m1.signerIndex with
  | some prev =>
    rw [halook] at hfirst
    simp at hfirst
  | none =>
    have hS1 : (S.insert m1).1 =
        { voted := aset S.voted m1.signerIndex m1,
          block_votes := bvInsert S.block_votes m1.blockHash m1.signerIndex m1.signature,
          messages := m1 :: S.messages } := by
      simp [StepCollector.insert, if_neg hm1, halook]
    have hm2' : m2 ∉ (m1 :: S.messages) := by
      intro h
      rcases List.mem_cons.mp h with h | h
      · exact hne h.symm
      · exact hm2 h
    rw [hS1]
    simp [StepCollector.insert, hm2', ← hsig, alookup_aset_self]

/-- Witness for C1_amended at a concrete input: the empty collector,
`m1 = (round (5,0,Prevote), hash 1, signer 3)`,
`m2 = (round (5,0,Prevote), hash 2, signer 3)`. -/
theorem C1_witness :
    ((emptyStep.insert ⟨⟨5, 0, Step.Prevote⟩, some 1, 3, 10⟩).1.insert
        ⟨⟨5, 0, Step.Prevote⟩, some 2, 3, 11⟩).2 =
      some ⟨3, ⟨⟨5, 0, Step.Prevote⟩, some 1, 3, 10⟩,
        ⟨⟨5, 0, Step.Prevote⟩, some 2, 3, 11⟩⟩ ∧
      ((emptyStep.insert ⟨⟨5, 0, Step.Prevote⟩, some 1, 3, 10⟩).1.insert
        ⟨⟨5, 0, Step.Prevote⟩, some 2, 3, 11⟩).1.block_votes =
      (emptyStep.insert ⟨⟨5, 0, Step.Prevote⟩, some 1, 3, 10⟩).1.block_votes :=
  C1_amended emptyStep ⟨⟨5, 0, Step.Prevote⟩, some 1, 3, 10⟩
    ⟨⟨5, 0, Step.Prevote⟩, some 2, 3, 11⟩ rfl (by decide) (by decide) (by decide)
    (by decide)

theorem foldl_minStep_none {l : List (VoteStep × StepCollector)} :
    ∀ {acc : Option VoteStep}, l.foldl minStep acc = none → l = [] ∧ acc = none := by
  induction l with
  | nil => intro acc h; exact ⟨rfl, h⟩
  | cons p rest ih =>
    intro acc h
    simp only [List.foldl_cons] at h
    rcases ih h with ⟨_, h2⟩
    cases acc with
    | none => simp [minStep] at h2
    | some k =>
      simp only [minStep] at h2
      split at h2 <;> cases h2

theorem foldl_minStep_some {l : List (VoteStep × StepCollector)} :
    ∀ {acc : Option VoteStep} {k0 : VoteStep}, l.foldl minStep acc = some k0 →
      (k0 ∈ l.map Prod.fst ∨ acc = some k0) ∧
      (∀ k ∈ l.map Prod.fst, k.lt k0 = false) ∧
      (∀ a, acc = some a → a.lt k0 = false) := by
  induction l with
  | nil =>
    intro acc k0 h
    simp only [List.foldl_nil] at h
    refine ⟨Or.inr h, by simp, ?_⟩
    intro a ha
    rw [h] at ha
    cases ha
    exact VoteStep.lt_irrefl k0
  | cons p rest ih =>
    intro acc k0 h
    simp only [List.foldl_cons] at h
    obtain ⟨Hmem, Hall, Hacc⟩ := ih h
    cases acc with
    | none =>
      have hp1 : p.1.lt k0 = false := Hacc p.1 (by simp [minStep])
      refine ⟨?_, ?_, by simp⟩
      · rcases Hmem with hm | hm
        · exact Or.inl (by simp [hm])
        · have hpk : p.1 = k0 := by simpa [minStep] using hm
          exact Or.inl (by simp [hpk])
      · intro k hk
        rw [List.map_cons] at hk
        rcases List.mem_cons.mp hk with hk' | hk'
        · rw [hk']; exact hp1
        · exact Hall k hk'
    | some a0 =>
      by_cases hlt : p.1.lt a0 = true
      · have hm' : minStep (some a0) p = some p.1 := by simp [minStep, hlt]
        have hp1 : p.1.lt k0 = false := Hacc p.1 hm'
        have ha0 : a0.lt k0 = false := by
          by_contra hc
          have hc' : a0.lt k0 = true := by
            revert hc; cases h' : a0.lt k0 <;> simp
          have := VoteStep.lt_trans hlt hc'
          rw [this] at hp1
          cases hp1
        refine ⟨?_, ?_, ?_⟩
        · rcases Hmem with hm | hm
          · exact Or.inl (by simp [hm])
          · rw [hm'] at hm
            cases hm
            exact Or.inl (by simp)
        · intro k hk
          rw [List.map_cons] at hk
          rcases List.mem_cons.mp hk with hk' | hk'
          · rw [hk']; exact hp1
          · exact Hall k hk'
        · intro a ha
          cases ha
          exact ha0
      · have hlt' : p.1.lt a0 = false := by
          revert hlt; cases h' : p.1.lt a0 <;> simp
        have hm' : minStep (some a0) p = some a0 := by simp [minStep, hlt']
        have ha0 : a0.lt k0 = false := Hacc a0 hm'
        have hp1 : p.1.lt k0 = false := by
          by_contra hc
          have hc' : p.1.lt k0 = true := by
            revert hc; cases h' : p.1.lt k0 <;> simp
          rcases VoteStep.lt_total hlt' with h'' | h''
          · have := VoteStep.lt_trans h'' hc'
            rw [this] at ha0
            cases ha0
          · rw [← h''] at ha0
            rw [hc'] at ha0
            cases ha0
        refine ⟨?_, ?_, ?_⟩
        · rcases Hmem with hm | hm
          · exact Or.inl (by simp [hm])
          · rw [hm'] at hm
            exact Or.inr hm
        · intro k hk
          rw [List.map_cons] at hk
          rcases List.mem_cons.mp hk with hk' | hk'
          · rw [hk']; exact hp1
          · exact Hall k hk'
        · intro a ha
          cases ha
          exact ha0

theorem smallestKey_eq_none {c : VoteCollector} (h : smallestKey c = none) :
    c.votes = [] :=
  (foldl_minStep_none h).1

theorem smallestKey_spec {c : VoteCollector} {k0 : VoteStep}
    (h : smallestKey c = some k0) :
    k0 ∈ keysVC c ∧ ∀ k ∈ keysVC c, k.lt k0 = false := by
  obtain ⟨Hmem, Hall, _⟩ := foldl_minStep_some h
  refine ⟨?_, Hall⟩
  rcases Hmem with hm | hm
  · exact hm
  · cases hm

theorem old_round_iff (c : VoteCollector) (r : VoteStep) :
    (match smallestKey c with
      | none => true
      | some oldest => r.lt oldest) = true ↔ ∀ k ∈ keysVC c, r.lt k = true := by
  cases hs : smallestKey c with
  | none =>
    have hv : c.votes = [] := smallestKey_eq_none hs
    simp [keysVC, hv]
  | some k0 =>
    obtain ⟨hk0, Hall⟩ := smallestKey_spec hs
    simp only []
    constructor
    · intro hlt k hk
      rcases VoteStep.lt_total (Hall k hk) with h' | h'
      · exact VoteStep.lt_trans hlt h'
      · rw [h']; exact hlt
    · intro hall
      exact hall k0 hk0

theorem StepCollector.mem_insert_self (c : StepCollector) (m : ConsensusMessage) :
    m ∈ (c.insert m).1.messages := by
  by_cases hm : m ∈ c.messages
  · simp [StepCollector.insert, hm]
  · cases h : alookup c.voted m.signerIndex <;>
      simp [StepCollector.insert, hm, h]

/-- C8 (confirmed): `throw_out_old(r)` replaces the map with exactly the
entries whose key is ≥ r (not less than r), and when some key ≥ r is
present the result is non-empty, so the assertion
`assert!(!new_collector.is_empty())` (`vote_collector.rs:147`) holds. -/
theorem C8_throw_out_old (c : VoteCollector) (r : VoteStep)
    (h : ∃ k ∈ keysVC c, k.lt r = false) :
    (c.throw_out_old r).1.votes = c.votes.filter (fun p => !(p.1.lt r)) ∧
      (c.throw_out_old r).2 = true := by
  refine ⟨rfl, ?_⟩
  rcases h with ⟨k, hk, hlt⟩
  rcases List.mem_map.mp hk with ⟨p, hp, hpk⟩
  have hmem : p ∈ c.votes.filter (fun p => !(p.1.lt r)) :=
    List.mem_filter.mpr ⟨hp, by simp [hpk, hlt]⟩
  have hne : c.votes.filter (fun p => !(p.1.lt r)) ≠ [] := by
    intro he
    rw [he] at hmem
    exact absurd hmem (List.not_mem_nil p)
  simp [VoteCollector.throw_out_old, List.isEmpty_iff, hne]

/-- Witness for C8 at a concrete input: the fresh collector and its own
sentinel round. -/
theorem C8_witness :
    (initVote.throw_out_old ⟨0, 0, Step.Propose⟩).1.votes =
        initVote.votes.filter (fun p => !(p.1.lt ⟨0, 0, Step.Propose⟩)) ∧
      (initVote.throw_out_old ⟨0, 0, Step.Propose⟩).2 = true :=
  C8_throw_out_old initVote ⟨0, 0, Step.Propose⟩
    ⟨⟨0, 0, Step.Propose⟩, by decide, by decide⟩

/-- Refutation of C4 as stated: after voting at round (5,0,Prevote) and
pruning to it, the smallest key is (5,0,Prevote).  A message at round
(3,0,Prevote) is then old — `is_old_or_known` is true — yet `vote`
admits it: a new round entry is created (the map grows to 2 entries) and
the message lands in that round's message set, because `vote` performs no
round-age check (`vote_collector.rs:122`). -/
theorem C4_counterexample :
    ((((initVote.vote ⟨⟨5, 0, Step.Prevote⟩, some 1, 0, 0⟩).1.throw_out_old
        ⟨5, 0, Step.Prevote⟩).1.is_old_or_known
        ⟨⟨3, 0, Step.Prevote⟩, some 1, 1, 0⟩) = true) ∧
      ((((initVote.vote ⟨⟨5, 0, Step.Prevote⟩, some 1, 0, 0⟩).1.throw_out_old
        ⟨5, 0, Step.Prevote⟩).1.vote
        ⟨⟨3, 0, Step.Prevote⟩, some 1, 1, 0⟩).1.votes.length = 2) ∧
      (⟨⟨3, 0, Step.Prevote⟩, some 1, 1, 0⟩ ∈ messagesAt
        (((initVote.vote ⟨⟨5, 0, Step.Prevote⟩, some 1, 0, 0⟩).1.throw_out_old
          ⟨5, 0, Step.Prevote⟩).1.vote
          ⟨⟨3, 0, Step.Prevote⟩, some 1, 1, 0⟩).1 ⟨3, 0, Step.Prevote⟩) := by
  decide

/-- C4 (amended): `vote(m)` itself performs no round-age gate — it always
creates the round entry if needed and inserts `m` into that round's
message set (even when the round is strictly older than the smallest
key); the round-age gate lives in `is_old_or_known`, which holds exactly
when `m` is already known at its round or `m`'s round is strictly older
than every key of the map (equivalently, than the smallest key). -/
theorem C4_amended (c : VoteCollector) (m : ConsensusMessage) :
    (m ∈ messagesAt (c.vote m).1 m.round) ∧
      (c.is_old_or_known m = true ↔
        (m ∈ messagesAt c m.round ∨ ∀ k ∈ keysVC c, m.round.lt k = true)) := by
  constructor
  · have h1 : messagesAt (c.vote m).1 m.round =
        (((alookup c.votes m.round).getD emptyStep).insert m).1.messages := by
      simp [VoteCollector.vote, messagesAt, alookup_aset_self]
    rw [h1]
    exact StepCollector.mem_insert_self _ _
  · unfold VoteCollector.is_old_or_known
    cases hl : alookup c.votes m.round with
    | some sc =>
      by_cases hm : m ∈ sc.messages
      · simp [hl, hm, messagesAt]
      · simp only [hl, hm, decide_eq_true_eq, if_false, decide_False,
          messagesAt, Option.getD_some]
        rw [if_neg Bool.false_ne_true, old_round_iff]
        simp [hm]
    | none =>
      simp only [hl, if_false, messagesAt, Option.getD_none]
      rw [if_neg Bool.false_ne_true, old_round_iff]
      simp [emptyStep]

theorem bvJoin_eq_bvKeys (c : StepCollector) : bvJoin c = bvKeys c.block_votes :=
  rfl

theorem aset_keys_mem {α β : Type} [DecidableEq α]
    (l : List (α × β)) (k : α) (v : β) (x : α) :
    x ∈ (aset l k v).map Prod.fst ↔ (x = k ∨ x ∈ l.map Prod.fst) := by
  induction l with
  | nil => simp [aset]
  | cons p rest ih =>
    by_cases hk : p.1 = k
    · subst hk
      simp [aset]
    · simp [aset, hk, ih]
      tauto

theorem bvKeys_cons (h : Option Nat) (l : List (Nat × Nat))
    (rest : List (Option Nat × List (Nat × Nat))) :
    bvKeys ((h, l) :: rest) = l.map Prod.fst ++ bvKeys rest :=
  rfl

theorem bvKeys_bvInsert_mem (bv : List (Option Nat × List (Nat × Nat)))
    (h : Option Nat) (s sig x : Nat) :
    x ∈ bvKeys (bvInsert bv h s sig) ↔ (x = s ∨ x ∈ bvKeys bv) := by
  induction bv with
  | nil => simp [bvInsert, bvKeys]
  | cons p rest ih =>
    obtain ⟨ph, inner⟩ := p
    by_cases hph : ph = h
    · subst hph
      simp only [bvInsert, eq_self_iff_true, if_true, bvKeys_cons]
      rw [List.mem_append, List.mem_append, aset_keys_mem]
      tauto
    · simp only [bvInsert, if_neg hph, bvKeys_cons]
      rw [List.mem_append, List.mem_append, ih]
      tauto

theorem bvKeys_bvInsert_nodup (bv : List (Option Nat × List (Nat × Nat)))
    (h : Option Nat) (s sig : Nat) (hs : s ∉ bvKeys bv)
    (hnd : (bvKeys bv).Nodup) : (bvKeys (bvInsert bv h s sig)).Nodup := by
  induction bv with
  | nil => simp [bvInsert, bvKeys]
  | cons p rest ih =>
    obtain ⟨ph, inner⟩ := p
    rw [bvKeys_cons] at hs hnd
    have hsInner : s ∉ inner.map Prod.fst := fun hc =>
      hs (List.mem_append.mpr (Or.inl hc))
    have hsRest : s ∉ bvKeys rest := fun hc =>
      hs (List.mem_append.mpr (Or.inr hc))
    rw [List.nodup_append] at hnd
    obtain ⟨hndInner, hndRest, hdisj⟩ := hnd
    by_cases hph : ph = h
    · subst hph
      have hkeys : (aset inner s sig).map Prod.fst = inner.map Prod.fst ++ [s] :=
        aset_keys_of_lookup_none _ _ _
          ((alookup_none_iff_not_mem_keys _ _).mpr hsInner)
      simp only [bvInsert, eq_self_iff_true, if_true, bvKeys_cons, hkeys]
      rw [List.append_assoc]
      refine List.Nodup.append hndInner ?_ ?_
      · refine List.Nodup.append (by simp) hndRest ?_
        intro a ha hb
        rw [List.mem_singleton] at ha
        subst ha
        exact hsRest hb
      · intro a ha hb
        rcases List.mem_append.mp hb with hb | hb
        · rw [List.mem_singleton] at hb
          subst hb
          exact hsInner ha
        · exact hdisj ha hb
    · simp only [bvInsert, if_neg hph, bvKeys_cons]
      refine List.Nodup.append hndInner (ih hsRest hndRest) ?_
      intro a ha hb
      rcases (bvKeys_bvInsert_mem rest h s sig a).mp hb with hb' | hb'
      · subst hb'
        exact hsInner ha
      · exact hdisj ha hb'

theorem InvC_empty : InvC emptyStep := by
  refine ⟨?_, ?_, ?_⟩ <;> simp [bvJoin, votedKeys, emptyStep]

theorem InvC_insert (c : StepCollector) (m : ConsensusMessage) (h : InvC c) :
    InvC (c.insert m).1 := by
  obtain ⟨h1, h2, h3⟩ := h
  by_cases hm : m ∈ c.messages
  · have hrec : (c.insert m).1 = c := by simp [StepCollector.insert, hm]
    rw [hrec]
    exact ⟨h1, h2, h3⟩
  · cases halook : alookup c.voted m.signerIndex with
    | some prev =>
      have hrec : (c.insert m).1 =
          { c with messages := m :: c.messages,
                   voted := aset c.voted m.signerIndex m } := by
        simp [StepCollector.insert, hm, halook]
      have hk := aset_keys_of_lookup_some c.voted m.signerIndex m prev halook
      rw [hrec]
      refine ⟨h1, ?_, ?_⟩
      · show ((aset c.voted m.signerIndex m).map Prod.fst).Nodup
        rw [hk]
        exact h2
      · intro s
        show s ∈ bvKeys c.block_votes ↔ s ∈ (aset c.voted m.signerIndex m).map Prod.fst
        rw [hk]
        exact h3 s
    | none =>
      have hfresh : m.signerIndex ∉ votedKeys c :=
        (alookup_none_iff_not_mem_keys _ _).mp halook
      have hfreshJ : m.signerIndex ∉ bvJoin c := fun hc => hfresh ((h3 _).mp hc)
      have hk := aset_keys_of_lookup_none c.voted m.signerIndex m halook
      have hrec : (c.insert m).1 =
          { c with messages := m :: c.messages,
                   voted := aset c.voted m.signerIndex m,
                   block_votes :=
                     bvInsert c.block_votes m.blockHash m.signerIndex m.signature } := by
        simp [StepCollector.insert, hm, halook]
      rw [hrec]
      refine ⟨?_, ?_, ?_⟩
      · exact bvKeys_bvInsert_nodup c.block_votes m.blockHash m.signerIndex
          m.signature hfreshJ h1
      · show ((aset c.voted m.signerIndex m).map Prod.fst).Nodup
        rw [hk]
        refine List.Nodup.append h2 (by simp) ?_
        intro a ha hb
        rw [List.mem_singleton] at hb
        subst hb
        exact hfresh ha
      · intro s
        show s ∈ bvKeys (bvInsert c.block_votes m.blockHash m.signerIndex m.signature) ↔
          s ∈ (aset c.voted m.signerIndex m).map Prod.fst
        rw [hk, bvKeys_bvInsert_mem]
        simp only [List.mem_append, List.mem_singleton]
        have := h3 s
        tauto

theorem InvC_run (ms : List ConsensusMessage) : InvC (runInserts ms) := by
  suffices H : ∀ (l : List ConsensusMessage) (c : StepCollector), InvC c →
      InvC (l.foldl (fun c m => (c.insert m).1) c) by
    exact H ms emptyStep InvC_empty
  intro l
  induction l with
  | nil => intro c hc; exact hc
  | cons m rest ih =>
    intro c hc
    exact ih _ (InvC_insert c m hc)

/-- C5 (confirmed): after any finite sequence of `insert` calls into a
`StepCollector`, the signer indices listed in `block_votes` are pairwise
distinct — so distinct block-hash entries have disjoint signer sets and
the `assert!(!result.is_set(*index), "Cannot vote twice in a round")` of
`StepCollector::count` (`vote_collector.rs:101`) never fires — and the
popcount of the returned bitset equals the number of distinct signer
indices whose messages were admitted (those recorded in `voted`). -/
theorem C5_no_double_count (ms : List ConsensusMessage) :
    (bvJoin (runInserts ms)).Nodup ∧
      (runInserts ms).block_votes.Pairwise
        (fun a b => (a.2.map Prod.fst).Disjoint (b.2.map Prod.fst)) ∧
      (runInserts ms).count.card = (votedKeys (runInserts ms)).toFinset.card := by
  obtain ⟨h1, _, h3⟩ := InvC_run ms
  refine ⟨h1, ?_, ?_⟩
  · have h1' := h1
    rw [bvJoin_eq_bvKeys] at h1'
    unfold bvKeys at h1'
    rw [List.nodup_flatten] at h1'
    exact (List.pairwise_map.mp h1'.2)
  · have hset : (bvJoin (runInserts ms)).toFinset =
        (votedKeys (runInserts ms)).toFinset := by
      ext x
      simp only [List.mem_toFinset]
      exact h3 x
    simpa [StepCollector.count] using congrArg Finset.card hset

theorem setCanonFirst_length (mods : List BlockChanges) (h : Nat) (canon : Bool) :
    (setCanonFirst mods h canon).length = mods.length := by
  induction mods with
  | nil => rfl
  | cons m rest ih =>
    by_cases hm : m.hash = h <;> simp [setCanonFirst, hm, ih]

theorem setCanonFirst_hashes (mods : List BlockChanges) (h : Nat) (canon : Bool) :
    (setCanonFirst mods h canon).map (fun m => m.hash) =
      mods.map (fun m => m.hash) := by
  induction mods with
  | nil => rfl
  | cons m rest ih =>
    by_cases hm : m.hash = h <;> simp [setCanonFirst, hm, ih]

theorem markAndPurge_mods {cache : AccountCache} {h : Nat} {canon : Bool}
    {c' : AccountCache} (hres : markAndPurge cache h canon = some c') :
    c'.modifications.map (fun m => m.hash) =
        cache.modifications.map (fun m => m.hash) ∧
      c'.modifications.length = cache.modifications.length := by
  unfold markAndPurge at hres
  cases hf : cache.modifications.find? (fun m => m.hash == h) with
  | none => rw [hf] at hres; cases hres
  | some m =>
    rw [hf] at hres
    cases hres
    exact ⟨setCanonFirst_hashes _ _ _, setCanonFirst_length _ _ _⟩

theorem purgeList_mods :
    ∀ (hs : List Nat) (cache : AccountCache) (clear canon : Bool),
      (purgeList cache clear hs canon).1.modifications.map (fun m => m.hash) =
          cache.modifications.map (fun m => m.hash) ∧
        (purgeList cache clear hs canon).1.modifications.length =
          cache.modifications.length := by
  intro hs
  induction hs with
  | nil => intro cache clear canon; exact ⟨rfl, rfl⟩
  | cons h rest ih =>
    intro cache clear canon
    by_cases hc : clear = true
    · subst hc
      simpa [purgeList] using ih cache true canon
    · have hc' : clear = false := by revert hc; cases clear <;> simp
      subst hc'
      cases hm : markAndPurge cache h canon with
      | none => simpa [purgeList, hm] using ih cache true canon
      | some c' =>
        obtain ⟨hmap, hlen⟩ := markAndPurge_mods hm
        obtain ⟨ihmap, ihlen⟩ := ih c' false canon
        refine ⟨?_, ?_⟩ <;> simp [purgeList, hm]
        · rw [ihmap, hmap]
        · rw [ihlen, hlen]

theorem insertByNumber_length (mods : List BlockChanges) (bc : BlockChanges) :
    (insertByNumber mods bc).length = mods.length + 1 := by
  induction mods with
  | nil => rfl
  | cons m rest ih =>
    by_cases hm : m.number < bc.number <;> simp [insertByNumber, hm, ih]

theorem propagate_mods_length (st : StateDB) (cache : AccountCache)
    (is_best : Bool) (h : cache.modifications.length ≤ STATE_CACHE_BLOCKS) :
    ((propagate st cache is_best).2).modifications.length ≤ STATE_CACHE_BLOCKS := by
  unfold propagate
  cases hn : st.commit_number with
  | none => exact h
  | some number =>
    cases hh : st.commit_hash with
    | none => exact h
    | some hash =>
      cases hp : st.parent_hash with
      | none => exact h
      | some parent =>
        simp only [insertByNumber_length, STATE_CACHE_BLOCKS] at h ⊢
        split
        · rename_i hfull
          simp only [List.length_dropLast]
          omega
        · rename_i hfull
          omega

/-- C6 (confirmed): `sync_cache` preserves the bound
`modifications.len() ≤ 12` — the purge loops keep the length, a wipe
resets it to 0, and the propagation step evicts the oldest entry first
whenever the deque is full (`state_db.rs:199`). -/
theorem C6_twelve_block_horizon (st : StateDB) (cache : AccountCache)
    (enacted retracted : List Nat) (is_best : Bool)
    (h : cache.modifications.length ≤ 12) :
    ((syncCache st cache enacted retracted is_best).2).modifications.length ≤ 12 := by
  unfold syncCache
  apply propagate_mods_length
  split
  · simp [emptyCache]
  · have h1 := (purgeList_mods (filterCommitting st.commit_hash enacted)
      cache false true).2
    have h2 := (purgeList_mods retracted
      (purgeList cache false (filterCommitting st.commit_hash enacted) true).1
      (purgeList cache false (filterCommitting st.commit_hash enacted) true).2
      false).2
    rw [h2, h1]
    exact h

/-- Witness for C6 at a concrete input: a canonical committed handle
syncing over a full 12-entry deque. -/
theorem C6_witness :
    ((syncCache ⟨[], some 100, some 200, some 13⟩
      ⟨[], (List.range 12).map (fun i => ⟨12 - i, 300 + i, 400, [], true⟩)⟩
      [] [] true).2).modifications.length ≤ 12 :=
  C6_twelve_block_horizon ⟨[], some 100, some 200, some 13⟩
    ⟨[], (List.range 12).map (fun i => ⟨12 - i, 300 + i, 400, [], true⟩)⟩
    [] [] true (by decide)

/-- C10 (confirmed): `journal_under` (`state_db.rs:130`) is atomic on the
handle: when the backing journal write fails the error is returned and
`commit_hash` / `commit_number` are untouched (the `?` operator returns
before the stamps); on success it returns the record count and stamps
`commit_hash = Some(id)`, `commit_number = Some(now)`. -/
theorem C10_journal_under_atomic (st : StateDB) (e records now id : Nat) :
    journalUnder st (.error e) now id = (.error e, st) ∧
      (journalUnder st (.ok records) now id).1 = .ok records ∧
      (journalUnder st (.ok records) now id).2.commit_hash = some id ∧
      (journalUnder st (.ok records) now id).2.commit_number = some now ∧
      (journalUnder st (.ok records) now id).2.local_cache = st.local_cache ∧
      (journalUnder st (.ok records) now id).2.parent_hash = st.parent_hash :=
  ⟨rfl, rfl, rfl, rfl, rfl, rfl⟩

theorem hashAny_of_map_eq {l1 l2 : List BlockChanges}
    (h : l1.map (fun m => m.hash) = l2.map (fun m => m.hash)) (x : Nat) :
    l1.any (fun m => m.hash == x) = l2.any (fun m => m.hash == x) := by
  have e : ∀ (l : List BlockChanges), l.any (fun m => m.hash == x) =
      (l.map (fun m => m.hash)).any (fun y => y == x) := by
    intro l
    induction l with
    | nil => rfl
    | cons a t ih => simp [List.any_cons, ih]
  rw [e l1, e l2, h]

theorem purgeList_flag :
    ∀ (hs : List Nat) (cache : AccountCache) (clear canon : Bool),
      (purgeList cache clear hs canon).2 =
        (clear || hs.any (fun h =>
          !(cache.modifications.any (fun m => m.hash == h)))) := by
  intro hs
  induction hs with
  | nil => intro cache clear canon; simp [purgeList]
  | cons h rest ih =>
    intro cache clear canon
    by_cases hc : clear = true
    · subst hc
      simp [purgeList, ih]
    · have hc' : clear = false := by revert hc; cases clear <;> simp
      subst hc'
      cases hm : markAndPurge cache h canon with
      | none =>
        have hfind : cache.modifications.find? (fun m => m.hash == h) = none := by
          unfold markAndPurge at hm
          cases hf : cache.modifications.find? (fun m => m.hash == h) with
          | none => rfl
          | some m => rw [hf] at hm; cases hm
        have hany : cache.modifications.any (fun m => m.hash == h) = false := by
          rw [List.any_eq_false]
          exact List.find?_eq_none.mp hfind
        simp [purgeList, hm, ih, hany]
      | some c' =>
        have hfound : cache.modifications.any (fun m => m.hash == h) = true := by
          unfold markAndPurge at hm
          cases hf : cache.modifications.find? (fun m => m.hash == h) with
          | none => rw [hf] at hm; cases hm
          | some m =>
            have hp := List.find?_some hf
            exact List.any_eq_true.mpr ⟨m, List.mem_of_find?_eq_some hf, hp⟩
        have hanyEq := hashAny_of_map_eq (markAndPurge_mods hm).1
        simp [purgeList, hm, ih, hfound, hanyEq]

/-- Refutation of C2 as stated: a canonical committed handle
(parent 100, committing block 200 at number 2, one modified local-cache
entry for address 7) calls `sync_cache([50], [], true)` where hash 50 is
unknown.  A wipe is requested, but the propagation step still runs: the
modifications deque ends with the new `BlockChanges` entry for block 200
and the LRU receives the local-cache entry — so the deque does gain an
entry and the LRU does receive entries, contrary to the claim. -/
theorem C2_counterexample :
    wipeRequested ⟨[⟨7, some 1, true⟩], some 100, some 200, some 2⟩
        emptyCache [50] [] = true ∧
      (syncCache ⟨[⟨7, some 1, true⟩], some 100, some 200, some 2⟩
        emptyCache [50] [] true).2.modifications = [⟨2, 200, 100, [7], true⟩] ∧
      (syncCache ⟨[⟨7, some 1, true⟩], some 100, some 200, some 2⟩
        emptyCache [50] [] true).2.accounts = [(7, some 1)] := by
  decide

/-- C2 (amended): when some enacted hash (other than the committing block)
or some retracted hash is not found in the modifications deque, both the
accounts LRU and the modifications deque are cleared — but step (d) is
NOT skipped (`state_db.rs:198` runs unconditionally after the wipe): the
whole call behaves exactly like the propagation step applied to the
emptied cache. -/
theorem C2_wipe_then_propagate (st : StateDB) (cache : AccountCache)
    (enacted retracted : List Nat) (is_best : Bool)
    (h : wipeRequested st cache enacted retracted = true) :
    syncCache st cache enacted retracted is_best =
      propagate st emptyCache is_best := by
  unfold syncCache
  have hanyEq := hashAny_of_map_eq
    (purgeList_mods (filterCommitting st.commit_hash enacted) cache false true).1
  have hflag : (purgeList
      (purgeList cache false (filterCommitting st.commit_hash enacted) true).1
      (purgeList cache false (filterCommitting st.commit_hash enacted) true).2
      retracted false).2 = true := by
    rw [purgeList_flag, purgeList_flag]
    unfold wipeRequested at h
    rw [List.any_append] at h
    simp only [Bool.false_or, hanyEq]
    exact h
  simp [hflag]

/-- Witness for C2_wipe_then_propagate at the concrete input of the
counterexample scenario. -/
theorem C2_witness :
    syncCache ⟨[⟨7, some 1, true⟩], some 100, some 200, some 2⟩
        emptyCache [50] [] true =
      propagate ⟨[⟨7, some 1, true⟩], some 100, some 200, some 2⟩
        emptyCache true :=
  C2_wipe_then_propagate ⟨[⟨7, some 1, true⟩], some 100, some 200, some 2⟩
    emptyCache [50] [] true (by decide)

theorem goAllowed_mem {addr : Nat} :
    ∀ {rest : List BlockChanges} {parent : Nat},
      goAllowed addr parent rest = true → parent ∈ rest.map (fun m => m.hash) := by
  intro rest
  induction rest with
  | nil => intro parent h; cases h
  | cons m rest ih =>
    intro parent h
    by_cases hm : m.hash = parent
    · simp [hm]
    · rw [List.map_cons]
      by_cases ha : addr ∈ m.accounts
      · simp [goAllowed, hm, ha] at h
      · simp only [goAllowed, if_neg hm, if_neg ha] at h
        exact List.mem_cons_of_mem _ (ih h)

theorem find?_hash_append_cons {pre rest : List BlockChanges}
    {m : BlockChanges} {parent : Nat} (hpre : parent ∉ pre.map (fun q => q.hash))
    (hm : m.hash = parent) :
    (pre ++ m :: rest).find? (fun q => q.hash == parent) = some m := by
  induction pre with
  | nil => simp [List.find?_cons, hm]
  | cons q pre ih =>
    rw [List.map_cons] at hpre
    have hq : ¬ q.hash = parent := fun hc => hpre (List.mem_cons.mpr (Or.inl hc.symm))
    have hpre' : parent ∉ pre.map (fun q => q.hash) := fun hc =>
      hpre (List.mem_cons.mpr (Or.inr hc))
    have hqb : (q.hash == parent) = false := by simpa using hq
    simp only [List.cons_append, List.find?_cons, hqb]
    exact ih hpre'

theorem goAllowed_specWalk {addr : Nat} :
    ∀ (rest pre : List BlockChanges) (parent fuel : Nat),
      ((pre ++ rest).map (fun m => m.hash)).Nodup →
      parent ∉ pre.map (fun m => m.hash) →
      goAllowed addr parent rest = true →
      rest.length + 1 ≤ fuel →
      specWalk addr (pre ++ rest) parent fuel = true := by
  intro rest
  induction rest with
  | nil =>
    intro pre parent fuel _ _ hgo _
    cases hgo
  | cons m rest ih =>
    intro pre parent fuel hnd hpre hgo hfuel
    obtain ⟨f, rfl⟩ : ∃ f, fuel = f + 1 := ⟨fuel - 1, by omega⟩
    by_cases hm : m.hash = parent
    · have hfind : (pre ++ m :: rest).find? (fun q => q.hash == parent) = some m :=
        find?_hash_append_cons hpre hm
      by_cases hcanon : m.is_canon = true
      · simp [specWalk, hfind, hcanon]
      · have hcanon' : m.is_canon = false := by
          revert hcanon; cases m.is_canon <;> simp
        have ha : addr ∉ m.accounts := by
          by_contra hc
          simp [goAllowed, hm, hcanon', hc] at hgo
        have hgo' : goAllowed addr m.parent rest = true := by
          simpa [goAllowed, hm, hcanon', ha] using hgo
        have hmem : m.parent ∈ rest.map (fun q => q.hash) := goAllowed_mem hgo'
        have hnotin : m.parent ∉ (pre ++ [m]).map (fun q => q.hash) := by
          intro hc
          have hnd' := hnd
          rw [List.map_append, List.map_cons, List.nodup_append] at hnd'
          obtain ⟨hnd1, hnd2, hdisj⟩ := hnd'
          rw [List.map_append] at hc
          rcases List.mem_append.mp hc with hc' | hc'
          · exact (hdisj hc') (List.mem_cons_of_mem _ hmem)
          · have he : m.parent = m.hash := by simpa using hc'
            rw [he] at hmem
            rw [List.nodup_cons] at hnd2
            exact hnd2.1 hmem
        have hrec := ih (pre ++ [m]) m.parent f
          (by rw [List.append_assoc, List.singleton_append]; exact hnd)
          hnotin hgo' (by simp at hfuel ⊢; omega)
        rw [List.append_assoc, List.singleton_append] at hrec
        simp [specWalk, hfind, hcanon', ha, hrec]
    · have ha : addr ∉ m.accounts := by
        by_contra hc
        simp [goAllowed, hm, hc] at hgo
      have hgo' : goAllowed addr parent rest = true := by
        simpa [goAllowed, hm, ha] using hgo
      have hnotin : parent ∉ (pre ++ [m]).map (fun q => q.hash) := by
        intro hc
        rw [List.map_append] at hc
        rcases List.mem_append.mp hc with hc' | hc'
        · exact hpre hc'
        · have he : parent = m.hash := by simpa using hc'
          exact hm he.symm
      have hrec := ih (pre ++ [m]) parent (f + 1)
        (by rw [List.append_assoc, List.singleton_append]; exact hnd)
        hnotin hgo' (by simp at hfuel ⊢; omega)
      rw [List.append_assoc, List.singleton_append] at hrec
      exact hrec

theorem goAllowed_walkOk {addr parent : Nat} {mods : List BlockChanges}
    (hnd : (mods.map (fun m => m.hash)).Nodup)
    (h : goAllowed addr parent mods = true) : walkOk addr parent mods = true := by
  have := goAllowed_specWalk mods [] parent (mods.length + 1)
    (by simpa using hnd) (by simp) h (by omega)
  simpa [walkOk] using this

/-- Refutation of C3 as stated, at two concrete inputs.  First: parent
hash 2, deque `[{hash 2, parent 1, canon}, {hash 1, parent 0, canon,
touches address 7}]` — block 1 is a modification ancestor of the handle's
parent hash and touches 7, yet the walk stops at the canonical block 2 and
the cached value for 7 is returned.  Second: parent hash 3 and an empty
deque — the chain cannot be resolved to a canonical block within
`modifications` (`walkOk` is false), yet `is_allowed` special-cases the
empty deque to true (`state_db.rs:303`) and the cached value is
returned. -/
theorem C3_counterexample :
    (ancestorTouches 7 2 [⟨2, 2, 1, [], true⟩, ⟨1, 1, 0, [7], true⟩] = true ∧
      getCachedAccount ⟨[], some 2, none, none⟩
        ⟨[(7, some 42)], [⟨2, 2, 1, [], true⟩, ⟨1, 1, 0, [7], true⟩]⟩ 7 =
        some (some 42)) ∧
    (walkOk 7 3 [] = false ∧
      getCachedAccount ⟨[], some 3, none, none⟩ ⟨[(7, some 42)], []⟩ 7 =
        some (some 42)) := by
  decide

/-- C3 (amended): `get_cached_account(addr)` returns `None` whenever the
handle has no `parent_hash`, or the modifications deque is non-empty and
the spec walk from `parent_hash` fails — that is, a block traversed
strictly before reaching a canonical block modified `addr`, or the parent
chain cannot be resolved to a canonical block within `modifications`
(both captured by `walkOk = false`).  The deque hashes are assumed
pairwise distinct, as `sync_cache` records one entry per committed
block. -/
theorem C3_cache_read_safety (st : StateDB) (cache : AccountCache) (addr : Nat)
    (hnd : (cache.modifications.map (fun m => m.hash)).Nodup)
    (h : st.parent_hash = none ∨
      (cache.modifications ≠ [] ∧
        ∃ p, st.parent_hash = some p ∧ walkOk addr p cache.modifications = false)) :
    getCachedAccount st cache addr = none := by
  unfold getCachedAccount
  cases hp : st.parent_hash with
  | none => simp [isAllowed, hp]
  | some p =>
    rcases h with h | ⟨hne, p', hp', hw⟩
    · rw [h] at hp
      cases hp
    · rw [hp] at hp'
      injection hp' with hpe
      subst hpe
      have hIsEmpty : cache.modifications.isEmpty = false := by
        cases hmods : cache.modifications with
        | nil => exact absurd hmods hne
        | cons a t => rfl
      have hga : goAllowed addr p cache.modifications = false := by
        by_contra hc
        have hc' : goAllowed addr p cache.modifications = true := by
          revert hc; cases goAllowed addr p cache.modifications <;> simp
        have := goAllowed_walkOk hnd hc'
        rw [hw] at this
        cases this
      simp [isAllowed, hp, hIsEmpty, hga]

/-- Witness for C3_cache_read_safety at a concrete input: a one-entry
deque whose non-canonical entry for the parent block touches the
address. -/
theorem C3_witness :
    getCachedAccount ⟨[], some 5, none, none⟩
      ⟨[(9, some 1)], [⟨1, 5, 4, [9], false⟩]⟩ 9 = none :=
  C3_cache_read_safety ⟨[], some 5, none, none⟩
    ⟨[(9, some 1)], [⟨1, 5, 4, [9], false⟩]⟩ 9 (by decide)
    (Or.inr ⟨by decide, 5, rfl, by decide⟩)

/-- C9 (confirmed): on `ConnectionAllowed` from a peer whose session is
ready, if the decrypted nonce differs from the expected nonce the engine
returns `UnexpectedNonce` and sends nothing to the connection layer
(`handshake.rs:197`); it emits `RequestConnection(peer, session)` if and
only if the decrypted nonce equals the expected nonce. -/
theorem C9_unexpected_nonce (table : List (Nat × Session)) (src : Nat)
    (enc : List Nat) (s : Session) (n0 n : Nat)
    (hlook : alookup table src = some s)
    (hready : s.nonce = some n0)
    (hdec : decryptNonce s enc = some n) :
    (n ≠ n0 →
      onPacket table (.ConnectionAllowed enc) src = .error (.UnexpectedNonce n)) ∧
      (onPacket table (.ConnectionAllowed enc) src =
          .ok ([.RequestConnection src s], []) ↔ n = n0) := by
  have hr : s.is_ready = true := by simp [Session.is_ready, hready]
  constructor
  · intro hne
    have hexp : s.is_expected_nonce n = false := by
      simp [Session.is_expected_nonce, hready]
      exact fun hc => hne hc.symm
    simp [onPacket, hlook, hr, hdec, hexp]
  · constructor
    · intro hok
      by_cases he : n = n0
      · exact he
      · have hexp : s.is_expected_nonce n = false := by
          simp [Session.is_expected_nonce, hready]
          exact fun hc => he hc.symm
        simp [onPacket, hlook, hr, hdec, hexp] at hok
    · intro he
      subst he
      have hexp : s.is_expected_nonce n = true := by
        simp [Session.is_expected_nonce, hready]
      simp [onPacket, hlook, hr, hdec, hexp]

/-- Witness for C9 at a concrete input: a ready session expecting nonce 4
receiving nonce 6, and the same session receiving the expected nonce. -/
theorem C9_witness :
    (6 ≠ 4 →
      onPacket [(1, ⟨2, some 4⟩)] (.ConnectionAllowed [2, 6]) 1 =
        .error (.UnexpectedNonce 6)) ∧
      (onPacket [(1, ⟨2, some 4⟩)] (.ConnectionAllowed [2, 6]) 1 =
          .ok ([.RequestConnection 1 ⟨2, some 4⟩], []) ↔ 6 = 4) :=
  C9_unexpected_nonce [(1, ⟨2, some 4⟩)] 1 [2, 6] ⟨2, some 4⟩ 4 6
    (by decide) (by decide) (by decide)

theorem parseL_serL (xs r : List Nat) : parseL (serL xs ++ r) = some (xs, r) := by
  simp [serL, parseL, List.take_left, List.drop_left]

theorem parseMany_ser (xss : List (List Nat)) (r : List Nat) :
    parseMany xss.length ((xss.map serL).flatten ++ r) = some (xss, r) := by
  induction xss generalizing r with
  | nil => simp [parseMany]
  | cons x xss ih =>
    simp only [List.map_cons, List.flatten_cons, List.length_cons,
      List.append_assoc]
    simp [parseMany, parseL_serL, ih]

theorem parseLL_serLL (xss : List (List Nat)) :
    parseLL (serLL xss) = some (xss, []) := by
  have := parseMany_ser xss []
  rw [List.append_nil] at this
  simp [serLL, parseLL, this]

theorem decodeHeaders_map (hs : List Nat) :
    decodeHeaders (hs.map headerToRlp) = some hs := by
  induction hs with
  | nil => rfl
  | cons h rest ih => simp [decodeHeaders, headerToRlp, headerOfRlp, ih]

/-- C7 (confirmed): for every `ResponseMessage` — `Headers`, `Bodies`
(including empty outer and inner lists), `StateHead`, `StateChunk` —
`decode(message_id(m), encode(m))` succeeds and returns a message
structurally equal to `m`, the `Bodies` payload surviving the
compress/decompress round trip. -/
theorem C7_codec_roundtrip (m : ResponseMessage) :
    ResponseMessage.decode m.message_id m.rlp_append = .ok m := by
  cases m with
  | Headers hs =>
    simp [ResponseMessage.message_id, ResponseMessage.rlp_append,
      ResponseMessage.decode, decodeHeaders_map]
  | Bodies bodies =>
    simp [ResponseMessage.message_id, ResponseMessage.rlp_append,
      ResponseMessage.decode, snappyCompress, snappyDecompress, parseLL_serLL]
  | StateHead b =>
    rfl
  | StateChunk b =>
    rfl
